import Mathlib

/-!
Shallow embedding of the TPLParserJS decoder (src/utils.ts, src/tplReader.ts).

Modelling conventions:
* A `Buffer` is a `List Nat` of bytes (each < 256 in real inputs).
* A JavaScript string is a `JStr := List Nat` of UTF-16 code units; here every
  produced unit is < 128 because Node's "ascii" decoding clears the high bit.
* `Buffer.subarray(s, e)` clamps to the buffer, returning a possibly truncated
  slice; `subarray` below reproduces that.
* `parseInt(slice.toString("hex"), 16)` yields the big-endian value of the
  slice, and NaN when the slice is empty; `readBE` returns `Option Nat`, with
  `none` standing for NaN.  Wherever the source lets a NaN flow into an offset
  (so the cursor itself becomes NaN and all later reads are garbage) the model
  returns `none`; wherever the source uses a NaN only as a loop count
  (`i < NaN` is false) the model uses `(readBE ...).getD 0`.
* `struct.unpack(">d", ...)` is modelled as the raw 8-byte slice (the claims
  never look at the IEEE-754 interpretation); it throws on short input, which
  the model renders as `none`.
* The mutually recursive decoder functions do not terminate on all inputs
  (see the placeholder scanner), so the whole cluster takes a fuel argument
  and returns `none` when the fuel runs out.
-/

namespace TPLParser

/-- A JavaScript string, as its list of UTF-16 code units. -/
abbrev JStr := List Nat

/-- Code units of a Lean string literal (all our literals are ASCII). -/
def jstr (s : String) : JStr := s.data.map Char.toNat

/-- `Buffer.subarray(s, e)` for non-negative indices: the bytes from `s`
(inclusive) to `e` (exclusive), clamped to the buffer. -/
def subarray (f : List Nat) (s e : Nat) : List Nat := (f.drop s).take (e - s)

/-- Big-endian value of a byte list (what `parseInt(hex, 16)` computes on a
non-empty slice). -/
def beVal (l : List Nat) : Nat := l.foldl (fun a b => a * 256 + b) 0

/-- `parseInt(file.subarray(off, off+n).toString("hex"), 16)`: `none` models
the NaN produced when the slice is empty. -/
def readBE (f : List Nat) (off n : Nat) : Option Nat :=
  let s := subarray f off (off + n)
  if s.isEmpty then none else some (beVal s)

/-- `buffer.toString("ascii")`: Node clears the high bit of every byte. -/
def asciiDecode (bytes : List Nat) : JStr := bytes.map (fun b => b % 128)

/-- `toLowerCase` on one code unit below 256 (only A-Z are affected for the
sub-128 units this model produces). -/
def lowerC (c : Nat) : Nat := if 65 ≤ c ∧ c ≤ 90 then c + 32 else c

/-- `String.prototype.toLowerCase` on a decoded string. -/
def lowerJ (s : JStr) : JStr := s.map lowerC

/-- ASCII-decode one byte and fold its case: the per-byte transformation the
header check effectively applies. -/
def foldB (b : Nat) : Nat := lowerC (b % 128)

/-- JavaScript whitespace below code point 128 (`String.prototype.trim`). -/
def isWs (c : Nat) : Bool := c = 9 || c = 10 || c = 11 || c = 12 || c = 13 || c = 32

/-- `String.prototype.trim`. -/
def trimJ (s : JStr) : JStr := ((s.dropWhile isWs).reverse.dropWhile isWs).reverse

/-- `toolName.split("=").pop() || ""`: the text after the last `=` (the whole
string when there is no `=`). -/
def afterLastEq (s : JStr) : JStr := (s.reverse.takeWhile (fun c => c ≠ 61)).reverse

/-- Hex digits of a byte list, two digits per byte, as digit values
(`buffer.toString("hex")`). -/
def hexDigits (bytes : List Nat) : List Nat :=
  bytes.flatMap (fun b => [(b / 16) % 16, b % 16])

/-- Number of non-overlapping left-to-right occurrences of `"00"` in a hex
digit sequence (`(textHex.match(/00/g) || []).length`). -/
def count00 : List Nat → Nat
  | 0 :: 0 :: rest => count00 rest + 1
  | _ :: rest => count00 rest
  | [] => 0

/-- The decoded text of a length-`len` block at `o`: hex round-trip, ASCII
decode, strip NUL characters (`.replace(/\x00/g, "")`). -/
def textSlice (f : List Nat) (o len : Nat) : JStr :=
  ((subarray f o (o + 2 * len)).map (fun b => b % 128)).filter (fun c => c ≠ 0)

/-- A decoded JavaScript value as the decoder builds them.  `vNaN` is the NaN
an out-of-range `parseInt` produces; `vDoubleRaw`/`vUnitFloat` keep the raw
8 IEEE-754 bytes uninterpreted (no claim depends on the float value). -/
inductive JSValue where
  | vBool (b : Bool)
  | vInt (n : Nat)
  | vNaN
  | vDoubleRaw (bytes : List Nat)
  | vUnitFloat (unit : List Nat) (bytes : List Nat)
  | vStr (s : List Nat)
  | vEnum (classId : List Nat) (value : List Nat)
  | vList (xs : List (Option (List Nat × JSValue)))
  | vObjc (props : List (List (List Nat × (List Nat × JSValue))))

/-- A property record `{ [name]: { type, value } }` (zero or one entries). -/
abbrev Rec := List (JStr × (JStr × JSValue))

/-- One tool record `{ name, properties }`. -/
abbrev ToolData := JStr × List Rec

/-- The decoded document: an insertion-ordered mapping from tool-type label to
its tool records. -/
abbrev TPLData := List (JStr × List ToolData)

/-- JavaScript property lookup `record[key]` on a property record. -/
def lookupRec (k : JStr) (r : Rec) : Option (JStr × JSValue) :=
  (r.find? (fun e => e.1 == k)).map (fun e => e.2)

/-- The synthetic property name `i.toString()` used by `extractList`. -/
def numName (i : Nat) : JStr := jstr (toString i)

/-- utils.ts:14-22 `extractLabel`: 4-byte big-endian length `L`; if `L = 0`
the label is the next 4 bytes, else the next `L` bytes.  `none` models the
NaN length read past the end of the buffer (the source then returns a NaN
offset). -/
def extractLabel (f : List Nat) (off : Nat) : Option (List Nat × Nat) :=
  match readBE f off 4 with
  | none => none
  | some labelLength =>
    if labelLength = 0 then some (subarray f (off + 4) (off + 8), off + 8)
    else some (subarray f (off + 4) (off + 4 + labelLength), off + 4 + labelLength)

/-- utils.ts:231-235 `extractBoolean`: one byte, nonzero means true
(`Boolean(NaN)` is false, covering the empty-slice case). -/
def extractBoolean (f : List Nat) (off : Nat) : JSValue × Nat :=
  (JSValue.vBool (match readBE f off 1 with | none => false | some n => n != 0), off + 1)

/-- utils.ts:317-320 `extractInteger`: 4-byte big-endian unsigned value. -/
def extractInteger (f : List Nat) (off : Nat) : JSValue × Nat :=
  ((match readBE f off 4 with | none => JSValue.vNaN | some n => JSValue.vInt n), off + 4)

/-- utils.ts:332-335 `extractLargeInteger`: 8-byte big-endian unsigned value. -/
def extractLargeInteger (f : List Nat) (off : Nat) : JSValue × Nat :=
  ((match readBE f off 8 with | none => JSValue.vNaN | some n => JSValue.vInt n), off + 8)

/-- utils.ts:280-284 `extractDouble`: 8 bytes unpacked as a big-endian double;
`struct.unpack` throws when fewer than 8 bytes remain (`none`). -/
def extractDouble (f : List Nat) (off : Nat) : Option (JSValue × Nat) :=
  let b := subarray f off (off + 8)
  if b.length = 8 then some (JSValue.vDoubleRaw b, off + 8) else none

/-- utils.ts:296-305 `extractUnitFloat`: 4-byte ASCII unit then an 8-byte
double. -/
def extractUnitFloat (f : List Nat) (off : Nat) : Option (JSValue × Nat) :=
  let unit := asciiDecode (subarray f off (off + 4))
  let b := subarray f (off + 4) (off + 12)
  if b.length = 8 then some (JSValue.vUnitFloat unit b, off + 12) else none

/-- utils.ts:247-268 `extractEnum`: length-prefixed classId and value, each
zero length substituted by 4. -/
def extractEnum (f : List Nat) (off : Nat) : Option (JSValue × Nat) :=
  match readBE f off 4 with
  | none => none
  | some n =>
    let classIdLength := if n = 0 then 4 else n
    let o1 := off + 4
    let classId := asciiDecode (subarray f o1 (o1 + classIdLength))
    let o2 := o1 + classIdLength
    match readBE f o2 4 with
    | none => none
    | some m =>
      let valueLength := if m = 0 then 4 else m
      let o3 := o2 + 4
      let value := asciiDecode (subarray f o3 (o3 + valueLength))
      some (JSValue.vEnum classId value, o3 + valueLength)

/-- utils.ts:128 the fifteen placeholder-scan tag literals, in source order. -/
def placeholders : List JStr :=
  [jstr "GlbO", jstr "Objc", jstr "VlLs", jstr "dou", jstr "UntF", jstr "TEXT",
   jstr "enum", jstr "long", jstr "comp", jstr "bool", jstr "type", jstr "GlbC",
   jstr "obj ", jstr "alis", jstr "tdta"]

/-- utils.ts:110 the five recognized-but-unsupported tags. -/
def unsupportedTags : List JStr :=
  [jstr "type", jstr "GlbC", jstr "obj ", jstr "alis", jstr "tdta"]

/-- The nine tags with a handler in the utils.ts:86-96 dispatch table. -/
def isHandledTag (t : JStr) : Bool :=
  t == jstr "Objc" || t == jstr "VlLs" || t == jstr "doub" || t == jstr "UntF" ||
  t == jstr "TEXT" || t == jstr "enum" || t == jstr "long" || t == jstr "comp" ||
  t == jstr "bool"

/-- utils.ts:126-139 `extractUntilPlaceholder`: append one decoded byte at a
time to the running text until the text ends with one of the placeholder
literals; then split off the final `placeholders[0].length = 4` characters.
The source loop is unbounded (`while (true)`), hence the fuel. -/
def extractUntilPlaceholder : Nat → List Nat → Nat → JStr → Option (JStr × JStr × Nat)
  | 0, _, _, _ => none
  | fuel + 1, f, off, pre =>
    let extractedText := pre ++ asciiDecode (subarray f off (off + 1))
    if placeholders.any (fun p => p.isSuffixOf extractedText) then
      some (extractedText.take (extractedText.length - 4),
            extractedText.drop (extractedText.length - 4), off + 1)
    else
      extractUntilPlaceholder fuel f (off + 1) extractedText

mutual

/-- utils.ts:34-42 `extractProperty`: decode the name label; `"null"` names
yield an empty record at the post-label offset, otherwise decode the value. -/
def extractProperty : Nat → List Nat → Nat → Option (Rec × Nat)
  | 0, _, _ => none
  | fuel + 1, f, off =>
    match extractLabel f off with
    | none => none
    | some (propertyName, o) =>
      if asciiDecode propertyName = jstr "null" then some ([], o)
      else extractPropertyValue fuel f o propertyName
  termination_by structural fuel _ _ => fuel

/-- utils.ts:55-74 `extractPropertyValue`: read the 4-byte type tag, dispatch,
and wrap a non-null result as `{ [name]: { type, value } }`. -/
def extractPropertyValue : Nat → List Nat → Nat → List Nat → Option (Rec × Nat)
  | 0, _, _, _ => none
  | fuel + 1, f, off, propertyName =>
    let propertyType := asciiDecode (subarray f off (off + 4))
    match extractOsTypeValue fuel f (off + 4) (trimJ (asciiDecode propertyName)) propertyType with
    | none => none
    | some (none, o) => some ([], o)
    | some (some (n, t, v), o) => some ([(n, (t, v))], o)
  termination_by structural fuel _ _ _ => fuel

/-- utils.ts:85-116 `extractOsTypeValue`: the tag dispatch table, the
recognized-but-unsupported tags (no value, offset unchanged), and the
placeholder-scan fallback that recurses with the recovered name and tag. -/
def extractOsTypeValue : Nat → List Nat → Nat → JStr → JStr → Option (Option (JStr × JStr × JSValue) × Nat)
  | 0, _, _, _, _ => none
  | fuel + 1, f, off, name, ptype =>
    if ptype = jstr "Objc" then
      match extractObjectClass fuel f off name with
      | none => none
      | some (v, o) => some (some (name, ptype, JSValue.vObjc v), o)
    else if ptype = jstr "VlLs" then
      match extractList fuel f off with
      | none => none
      | some (v, o) => some (some (name, ptype, JSValue.vList v), o)
    else if ptype = jstr "doub" then
      match extractDouble f off with
      | none => none
      | some (v, o) => some (some (name, ptype, v), o)
    else if ptype = jstr "UntF" then
      match extractUnitFloat f off with
      | none => none
      | some (v, o) => some (some (name, ptype, v), o)
    else if ptype = jstr "TEXT" then
      match extractText fuel f off with
      | none => none
      | some (s, o) => some (some (name, ptype, JSValue.vStr s), o)
    else if ptype = jstr "enum" then
      match extractEnum f off with
      | none => none
      | some (v, o) => some (some (name, ptype, v), o)
    else if ptype = jstr "long" then
      let r := extractInteger f off
      some (some (name, ptype, r.1), r.2)
    else if ptype = jstr "comp" then
      let r := extractLargeInteger f off
      some (some (name, ptype, r.1), r.2)
    else if ptype = jstr "bool" then
      let r := extractBoolean f off
      some (some (name, ptype, r.1), r.2)
    else if unsupportedTags.contains ptype then
      some (none, off)
    else
      match extractUntilPlaceholder fuel f off (name ++ ptype) with
      | none => none
      | some (nameFound, newPropertyType, o) => extractOsTypeValue fuel f o nameFound newPropertyType
  termination_by structural fuel _ _ _ _ => fuel

/-- utils.ts:152-176 `extractObjectClass`: the `"Grad"` special case (one text
field, property count fixed to 4), otherwise skip 6 bytes, one discarded
label, then a 4-byte count (NaN counts behave as 0 in `i < count`). -/
def extractObjectClass : Nat → List Nat → Nat → JStr → Option (List Rec × Nat)
  | 0, _, _, _ => none
  | fuel + 1, f, off, name =>
    if name = jstr "Grad" then
      match extractText fuel f off with
      | none => none
      | some (_, o) => propLoop fuel f o 4
    else
      match extractLabel f (off + 6) with
      | none => none
      | some (_, o) =>
        let propertyCount := (readBE f o 4).getD 0
        propLoop fuel f (o + 4) propertyCount
  termination_by structural fuel _ _ _ => fuel

/-- The `for (i = 0; i < propertyCount; i++) extractProperty` loop shared by
utils.ts:169-173 and the inline loop in tplReader.ts:63-67. -/
def propLoop : Nat → List Nat → Nat → Nat → Option (List Rec × Nat)
  | 0, _, _, _ => none
  | _ + 1, _, off, 0 => some ([], off)
  | fuel + 1, f, off, k + 1 =>
    match extractProperty fuel f off with
    | none => none
    | some (p, o) =>
      match propLoop fuel f o k with
      | none => none
      | some (ps, o2) => some (p :: ps, o2)
  termination_by structural fuel _ _ _ => fuel

/-- utils.ts:347-360 `extractList`: 4-byte count, then one tagged value per
index with the numeric string of the index as the synthetic name. -/
def extractList : Nat → List Nat → Nat → Option (List (Option (JStr × JSValue)) × Nat)
  | 0, _, _ => none
  | fuel + 1, f, off =>
    let count := (readBE f off 4).getD 0
    extractListLoop fuel f (off + 4) 0 count
  termination_by structural fuel _ _ => fuel

/-- The `extractList` loop body: each iteration pushes
`property[iAsString]` (the lookup of the synthetic name in the returned
record, `none` when absent). -/
def extractListLoop : Nat → List Nat → Nat → Nat → Nat → Option (List (Option (JStr × JSValue)) × Nat)
  | 0, _, _, _, _ => none
  | _ + 1, _, off, _, 0 => some ([], off)
  | fuel + 1, f, off, i, k + 1 =>
    match extractPropertyValue fuel f off (numName i) with
    | none => none
    | some (property, o) =>
      match extractListLoop fuel f o (i + 1) k with
      | none => none
      | some (ps, o2) => some (lookupRec (numName i) property :: ps, o2)
  termination_by structural fuel _ _ _ _ => fuel

/-- utils.ts:188-219 `extractText`: 4-byte length; a nonzero length reads
`2*length` bytes directly, a zero length enters the indirect-text recovery
loop.  A NaN length read gives a NaN final offset (`none`). -/
def extractText : Nat → List Nat → Nat → Option (JStr × Nat)
  | 0, _, _ => none
  | fuel + 1, f, off =>
    match readBE f off 4 with
    | none => none
    | some 0 =>
      match extractTextLoop fuel f (off + 4) with
      | none => none
      | some (len, o) => some (textSlice f o len, o + 2 * len)
    | some (len + 1) => some (textSlice f (off + 4) (len + 1), off + 4 + 2 * (len + 1))
  termination_by structural fuel _ _ => fuel

/-- The utils.ts:192-212 `while (length === 0)` recovery loop, entered with
the cursor just past a zero length field: rewind 4, consume one embedded
property, re-read a length; accept a nonzero length exactly when the hex dump
of the next `2*length` bytes contains `length + 1` occurrences of `"00"`,
otherwise retry.  A NaN re-read exits the source loop and then produces a NaN
final offset (`none`). -/
def extractTextLoop : Nat → List Nat → Nat → Option (Nat × Nat)
  | 0, _, _ => none
  | fuel + 1, f, o =>
    match extractProperty fuel f (o - 4) with
    | none => none
    | some (_, q) =>
      match readBE f q 4 with
      | none => none
      | some 0 => extractTextLoop fuel f (q + 4)
      | some (len + 1) =>
        if count00 (hexDigits (subarray f (q + 4) (q + 4 + 2 * (len + 1)))) = (len + 1) + 1 then
          some (len + 1, q + 4)
        else
          extractTextLoop fuel f (q + 4)
  termination_by structural fuel _ _ => fuel

end

/-- tplReader.ts:41-79 the `readTool` `while (true)` loop: text name, skip 10,
type label, 4-byte property count, properties, append the record; stop when
fewer than 4 bytes remain. -/
def readToolLoop : Nat → List Nat → Nat → TPLData → Option (TPLData × Nat)
  | 0, _, _, _ => none
  | fuel + 1, f, off, tpl =>
    match extractText fuel f off with
    | none => none
    | some (toolName, o1) =>
      let o2 := o1 + 10
      match extractLabel f o2 with
      | none => none
      | some (toolTypeBuffer, o3) =>
        let toolType := trimJ (asciiDecode toolTypeBuffer)
        let tpl1 := if tpl.any (fun e => e.1 == toolType) then tpl else tpl ++ [(toolType, [])]
        let count := (readBE f o3 4).getD 0
        match propLoop fuel f (o3 + 4) count with
        | none => none
        | some (properties, o5) =>
          let tpl2 := tpl1.map (fun e =>
            if e.1 == toolType then (e.1, e.2 ++ [(afterLastEq toolName, properties)]) else e)
          if (subarray f o5 (o5 + 4)).length ≠ 4 then some (tpl2, o5)
          else readToolLoop fuel f o5 tpl2

/-- utils.ts:384-406 `validateTplHeader`: case-insensitive `8btp` at the
offset, skip 8 bytes, case-insensitive `8bim`. -/
def validateTplHeader (f : List Nat) (off : Nat) : Bool × Nat :=
  let headerSignature := lowerJ (asciiDecode (subarray f off (off + 4)))
  let o1 := off + 4
  if headerSignature ≠ jstr "8btp" then (false, o1)
  else
    let o2 := o1 + 8
    let photoshopSignature := lowerJ (asciiDecode (subarray f o2 (o2 + 4)))
    let o3 := o2 + 4
    if photoshopSignature ≠ jstr "8bim" then (false, o3) else (true, o3)

/-- The 8-byte tool-data marker `8BIMtptp` (utils.ts:415). -/
def marker : List Nat := jstr "8BIMtptp"

/-- Whether `pat` occurs in `f` starting at position `p` (a full-length
match, as `Buffer.lastIndexOf` requires). -/
def matchesAt (f pat : List Nat) (p : Nat) : Bool :=
  subarray f p (p + pat.length) == pat

/-- `Buffer.lastIndexOf`, searching downward from position `n`. -/
def lastIndexOfFrom (f pat : List Nat) : Nat → Option Nat
  | 0 => if matchesAt f pat 0 then some 0 else none
  | n + 1 => if matchesAt f pat (n + 1) then some (n + 1) else lastIndexOfFrom f pat n

/-- utils.ts:414-424 `moveToToolDataSection`: last occurrence of the marker,
plus 16; `(false, 0)` when absent. -/
def moveToToolDataSection (f : List Nat) : Bool × Nat :=
  match lastIndexOfFrom f marker f.length with
  | some lastOccurrencePos => (true, lastOccurrencePos + 16)
  | none => (false, 0)

/-- tplReader.ts:89-106 `readTpl` with the file-system read replaced by the
buffer argument: validate header, locate the tool section, read tools; an
empty document when either validation step fails. -/
def readTpl (fuel : Nat) (f : List Nat) : Option TPLData :=
  if (validateTplHeader f 0).1 = false then some []
  else
    match moveToToolDataSection f with
    | (false, _) => some []
    | (true, newOffset) => (readToolLoop fuel f newOffset []).map (fun r => r.1)

/-- The C1 end-to-end buffer: valid header (`8BTP`, 8 reserved bytes, `8BIM`),
the `8BIMtptp` marker, 8 filler bytes, then one tool record: text name
`"Default=MyBrush"` (length 15, UTF-16-style bytes), 10 padding bytes, the
length-0 label `Brsh`, property count 1, property `Size` of tag `long`,
value 42. -/
def c1buf : List Nat :=
  [56, 66, 84, 80,  0, 0, 0, 0,  0, 0, 0, 0,  56, 66, 73, 77,
   56, 66, 73, 77, 116, 112, 116, 112,  0, 0, 0, 0, 0, 0, 0, 0,
   0, 0, 0, 15,
   0, 68, 0, 101, 0, 102, 0, 97, 0, 117, 0, 108, 0, 116, 0, 61,
   0, 77, 0, 121, 0, 66, 0, 114, 0, 117, 0, 115, 0, 104,
   0, 0, 0, 0, 0, 0, 0, 0, 0, 0,
   0, 0, 0, 0,  66, 114, 115, 104,
   0, 0, 0, 1,
   0, 0, 0, 4,  83, 105, 122, 101,
   108, 111, 110, 103,
   0, 0, 0, 42]

/-- The document C1 expects:
`{ "Brsh": [ { name: "MyBrush", properties: [ { Size: { type: "long", value: 42 } } ] } ] }`. -/
def c1doc : TPLData :=
  [(jstr "Brsh", [(jstr "MyBrush", [[(jstr "Size", (jstr "long", JSValue.vInt 42))]])])]

/-- A buffer with the `8BIMtptp` marker at offsets 10 and 200 (and nowhere
later), for exercising the last-occurrence rule of C5. -/
def c5buf : List Nat :=
  List.replicate 10 0 ++ marker ++ List.replicate 182 0 ++ marker ++ List.replicate 10 0

/-- Modelled from the claim's words for C6: two byte sequences are
"case-insensitively equal" when they agree after folding ASCII letter case
(each byte compared as-is, no high-bit clearing). -/
abbrev caseInsEq (a b : List Nat) : Prop := a.map lowerC = b.map lowerC

end TPLParser

namespace TPLParser

/-! ## Basic lemmas about the byte-level primitives -/

theorem length_subarray (f : List Nat) (s e : Nat) :
    (subarray f s e).length = min (e - s) (f.length - s) := by
  simp [subarray, List.length_take, List.length_drop]

theorem subarray_nil_of_le (f : List Nat) (s e : Nat) (h : f.length ≤ s) :
    subarray f s e = [] := by
  simp [subarray, List.drop_eq_nil_of_le h]

theorem subarray_cons_split (f : List Nat) (a b : Nat) (h : a + 1 ≤ b) :
    subarray f a b = subarray f a (a + 1) ++ subarray f (a + 1) b := by
  unfold subarray
  have h1 : b - a = 1 + (b - (a + 1)) := by omega
  have h2 : a + 1 - a = 1 := by omega
  rw [h1, h2, List.take_add, List.drop_drop]

theorem extractLabel_advance (f : List Nat) (off : Nat) (b : List Nat) (o : Nat)
    (h : extractLabel f off = some (b, o)) : off < o := by
  cases hr : readBE f off 4 with
  | none => simp [extractLabel, hr] at h
  | some L =>
    simp only [extractLabel, hr] at h
    by_cases h0 : L = 0
    · rw [if_pos h0] at h; cases h; omega
    · rw [if_neg h0] at h; cases h; omega

theorem extractDouble_advance (f : List Nat) (off : Nat) (v : JSValue) (o : Nat)
    (h : extractDouble f off = some (v, o)) : o = off + 8 := by
  simp only [extractDouble] at h
  split at h
  · cases h; rfl
  · exact Option.noConfusion h

theorem extractUnitFloat_advance (f : List Nat) (off : Nat) (v : JSValue) (o : Nat)
    (h : extractUnitFloat f off = some (v, o)) : o = off + 12 := by
  simp only [extractUnitFloat] at h
  split at h
  · cases h; rfl
  · exact Option.noConfusion h

theorem extractEnum_advance (f : List Nat) (off : Nat) (v : JSValue) (o : Nat)
    (h : extractEnum f off = some (v, o)) : off < o := by
  simp only [extractEnum] at h
  split at h
  · exact Option.noConfusion h
  · rename_i n heq
    split at h
    · exact Option.noConfusion h
    · rename_i m heq2
      cases h
      split <;> split <;> omega

end TPLParser

namespace TPLParser

/-! ## The placeholder scanner -/

theorem eup_spec : ∀ fuel f off pre name tag o2,
    extractUntilPlaceholder fuel f off pre = some (name, tag, o2) →
    off < o2 ∧
    name ++ tag = pre ++ asciiDecode (subarray f off o2) ∧
    name = (name ++ tag).take ((name ++ tag).length - 4) ∧
    tag = (name ++ tag).drop ((name ++ tag).length - 4) ∧
    (placeholders.any fun p => p.isSuffixOf (name ++ tag)) = true := by
  intro fuel
  induction fuel with
  | zero => intro f off pre name tag o2 h; exact Option.noConfusion h
  | succ n ih =>
    intro f off pre name tag o2 h
    simp only [extractUntilPlaceholder] at h
    split at h
    · rename_i hc
      simp only [Option.some.injEq, Prod.mk.injEq] at h
      obtain ⟨h1, h2, h3⟩ := h
      subst h1; subst h2; subst h3
      refine ⟨by omega, by rw [List.take_append_drop], ?_, ?_, ?_⟩
      · rw [List.take_append_drop]
      · rw [List.take_append_drop]
      · rw [List.take_append_drop]; exact hc
    · have hrec := ih f (off + 1) (pre ++ asciiDecode (subarray f off (off + 1))) name tag o2 h
      obtain ⟨ha, hb, hc1, hd, he⟩ := hrec
      have hsplit : subarray f off o2 = subarray f off (off + 1) ++ subarray f (off + 1) o2 :=
        subarray_cons_split f off o2 (by omega)
      refine ⟨by omega, ?_, hc1, hd, he⟩
      rw [hb, hsplit]
      simp [asciiDecode, List.append_assoc]

/-! ## The tool-section locator -/

theorem matchesAt_false_of_gt (f : List Nat) (q : Nat) (h : f.length ≤ q) :
    matchesAt f marker q = false := by
  have h1 : subarray f q (q + marker.length) = [] := subarray_nil_of_le f q _ h
  unfold matchesAt
  rw [h1]
  rfl

theorem lastIndexOfFrom_some (f pat : List Nat) :
    ∀ n p, lastIndexOfFrom f pat n = some p →
      matchesAt f pat p = true ∧ p ≤ n ∧ ∀ q, q ≤ n → matchesAt f pat q = true → q ≤ p := by
  intro n
  induction n with
  | zero =>
    intro p h
    simp only [lastIndexOfFrom] at h
    split at h
    · rename_i hm; cases h; exact ⟨hm, Nat.le_refl 0, fun q hq _ => hq⟩
    · exact Option.noConfusion h
  | succ n ih =>
    intro p h
    simp only [lastIndexOfFrom] at h
    split at h
    · rename_i hm; cases h
      exact ⟨hm, Nat.le_refl _, fun q hq _ => hq⟩
    · rename_i hm
      obtain ⟨h1, h2, h3⟩ := ih p h
      refine ⟨h1, by omega, ?_⟩
      intro q hq hmq
      rcases Nat.lt_or_ge q (n + 1) with hlt | hge
      · exact h3 q (by omega) hmq
      · have hq1 : q = n + 1 := by omega
        subst hq1
        exact absurd hmq hm

theorem lastIndexOfFrom_none (f pat : List Nat) :
    ∀ n, lastIndexOfFrom f pat n = none → ∀ q, q ≤ n → matchesAt f pat q = false := by
  intro n
  induction n with
  | zero =>
    intro h q hq
    simp only [lastIndexOfFrom] at h
    split at h
    · exact Option.noConfusion h
    · rename_i hm
      have hq0 : q = 0 := Nat.le_zero.mp hq
      subst hq0
      exact Bool.eq_false_iff.mpr hm
  | succ n ih =>
    intro h q hq
    simp only [lastIndexOfFrom] at h
    split at h
    · exact Option.noConfusion h
    · rename_i hm
      rcases Nat.lt_or_ge q (n + 1) with hlt | hge
      · exact ih h q (by omega)
      · have hq1 : q = n + 1 := by omega
        subst hq1
        exact Bool.eq_false_iff.mpr hm

end TPLParser

namespace TPLParser

/-- Cursor progress for the whole decoder cluster, by induction on fuel:
every function that completes moves the cursor forward; the dispatch may
leave it in place (unsupported tags), the loops with zero iterations leave
it in place, and every other step strictly advances. -/
theorem decodeAdvance : ∀ fuel,
    (∀ f off r, extractProperty fuel f off = some r → off < r.2) ∧
    (∀ f off nb r, extractPropertyValue fuel f off nb = some r → off + 4 ≤ r.2) ∧
    (∀ f off nm pt r, extractOsTypeValue fuel f off nm pt = some r → off ≤ r.2) ∧
    (∀ f off nm r, extractObjectClass fuel f off nm = some r → off ≤ r.2) ∧
    (∀ f off k r, propLoop fuel f off k = some r → off ≤ r.2) ∧
    (∀ f off r, extractList fuel f off = some r → off ≤ r.2) ∧
    (∀ f off i k r, extractListLoop fuel f off i k = some r → off ≤ r.2) ∧
    (∀ f off r, extractText fuel f off = some r → off < r.2) ∧
    (∀ f off r, extractTextLoop fuel f off = some r → off < r.2 ∧ 1 ≤ r.1) := by
  intro fuel
  induction fuel with
  | zero =>
    refine ⟨?_, ?_, ?_, ?_, ?_, ?_, ?_, ?_, ?_⟩ <;> intros <;> rename_i h <;> exact nomatch h
  | succ n ih =>
    obtain ⟨ihP, ihPV, ihOS, ihOC, ihPL, ihL, ihLL, ihT, ihTL⟩ := ih
    refine ⟨?_, ?_, ?_, ?_, ?_, ?_, ?_, ?_, ?_⟩
    · -- extractProperty
      intro f off r h
      simp only [extractProperty] at h
      split at h
      · exact Option.noConfusion h
      · rename_i nb o heq
        have hadv := extractLabel_advance f off nb o heq
        split at h
        · cases h; exact hadv
        · have := ihPV f o nb r h
          omega
    · -- extractPropertyValue
      intro f off nb r h
      simp only [extractPropertyValue] at h
      split at h
      · exact Option.noConfusion h
      · rename_i o heq
        have := ihOS f (off + 4) _ _ _ heq
        cases h
        simpa using this
      · rename_i tn tt tv o heq
        have := ihOS f (off + 4) _ _ _ heq
        cases h
        simpa using this
    · -- extractOsTypeValue
      intro f off nm pt r h
      simp only [extractOsTypeValue] at h
      by_cases h1 : pt = jstr "Objc"
      · rw [if_pos h1] at h
        split at h
        · exact Option.noConfusion h
        · rename_i v o heq; cases h; simpa using ihOC f off nm (v, o) heq
      rw [if_neg h1] at h
      by_cases h2 : pt = jstr "VlLs"
      · rw [if_pos h2] at h
        split at h
        · exact Option.noConfusion h
        · rename_i v o heq; cases h; simpa using ihL f off (v, o) heq
      rw [if_neg h2] at h
      by_cases h3 : pt = jstr "doub"
      · rw [if_pos h3] at h
        split at h
        · exact Option.noConfusion h
        · rename_i v o heq; cases h
          have := extractDouble_advance f off v o heq
          exact (by omega : off ≤ o)
      rw [if_neg h3] at h
      by_cases h4 : pt = jstr "UntF"
      · rw [if_pos h4] at h
        split at h
        · exact Option.noConfusion h
        · rename_i v o heq; cases h
          have := extractUnitFloat_advance f off v o heq
          exact (by omega : off ≤ o)
      rw [if_neg h4] at h
      by_cases h5 : pt = jstr "TEXT"
      · rw [if_pos h5] at h
        split at h
        · exact Option.noConfusion h
        · rename_i s o heq; cases h
          have := ihT f off (s, o) heq
          exact (by simp at this; omega : off ≤ o)
      rw [if_neg h5] at h
      by_cases h6 : pt = jstr "enum"
      · rw [if_pos h6] at h
        split at h
        · exact Option.noConfusion h
        · rename_i v o heq; cases h
          have := extractEnum_advance f off v o heq
          exact (by omega : off ≤ o)
      rw [if_neg h6] at h
      by_cases h7 : pt = jstr "long"
      · rw [if_pos h7] at h
        cases h
        simp only [extractInteger]
        omega
      rw [if_neg h7] at h
      by_cases h8 : pt = jstr "comp"
      · rw [if_pos h8] at h
        cases h
        simp only [extractLargeInteger]
        omega
      rw [if_neg h8] at h
      by_cases h9 : pt = jstr "bool"
      · rw [if_pos h9] at h
        cases h
        simp only [extractBoolean]
        omega
      rw [if_neg h9] at h
      by_cases h10 : unsupportedTags.contains pt = true
      · rw [if_pos h10] at h
        cases h
        exact Nat.le_refl off
      · rw [if_neg h10] at h
        split at h
        · exact Option.noConfusion h
        · rename_i n2 t2 o2 heq
          have hsc := (eup_spec n f off (nm ++ pt) n2 t2 o2 heq).1
          have := ihOS f o2 n2 t2 r h
          omega
    · -- extractObjectClass
      intro f off nm r h
      simp only [extractObjectClass] at h
      split at h
      · split at h
        · exact Option.noConfusion h
        · rename_i s o heq
          have h1 := ihT f off (s, o) heq
          have h2 := ihPL f o 4 r h
          simp only at h1
          omega
      · split at h
        · exact Option.noConfusion h
        · rename_i lb o heq
          have h1 := extractLabel_advance f (off + 6) lb o heq
          have h2 := ihPL f (o + 4) _ r h
          omega
    · -- propLoop
      intro f off k r h
      cases k with
      | zero =>
        simp only [propLoop] at h
        cases h
        exact Nat.le_refl off
      | succ k =>
        simp only [propLoop] at h
        split at h
        · exact Option.noConfusion h
        · rename_i p o heq
          have h1 := ihP f off (p, o) heq
          split at h
          · exact Option.noConfusion h
          · rename_i ps o2 heq2
            have h2 := ihPL f o k (ps, o2) heq2
            cases h
            simp only at h1 h2 ⊢
            omega
    · -- extractList
      intro f off r h
      simp only [extractList] at h
      have := ihLL f (off + 4) 0 _ r h
      omega
    · -- extractListLoop
      intro f off i k r h
      cases k with
      | zero =>
        simp only [extractListLoop] at h
        cases h
        exact Nat.le_refl off
      | succ k =>
        simp only [extractListLoop] at h
        split at h
        · exact Option.noConfusion h
        · rename_i prop o heq
          have h1 := ihPV f off (numName i) (prop, o) heq
          split at h
          · exact Option.noConfusion h
          · rename_i ps o2 heq2
            have h2 := ihLL f o (i + 1) k (ps, o2) heq2
            cases h
            simp only at h1 h2 ⊢
            omega
    · -- extractText
      intro f off r h
      simp only [extractText] at h
      split at h
      · exact Option.noConfusion h
      · split at h
        · exact Option.noConfusion h
        · rename_i len o heq
          have h1 := ihTL f (off + 4) (len, o) heq
          cases h
          simp only at h1 ⊢
          exact (by omega : off < o + 2 * len)
      · rename_i len heq
        cases h
        exact (by omega : off < off + 4 + 2 * (len + 1))
    · -- extractTextLoop
      intro f off r h
      simp only [extractTextLoop] at h
      split at h
      · exact Option.noConfusion h
      · rename_i q heq
        have h1 := ihP f (off - 4) _ heq
        simp only at h1
        split at h
        · exact Option.noConfusion h
        · have h2 := ihTL f (q + 4) r h
          omega
        · rename_i len heq2
          split at h
          · cases h
            refine ⟨by omega, by omega⟩
          · have h2 := ihTL f (q + 4) r h
            omega

end TPLParser

namespace TPLParser

/-! ## Claim theorems -/

/-- C1: for the minimal synthetic buffer (valid header, trailing `8BIMtptp`
marker, 8 filler bytes, one tool record with raw name `"Default=MyBrush"`,
type label `Brsh`, property count 1, one property `Size` of tag `long` with
value 42), the decode entry point returns
`{ Brsh: [ { name: "MyBrush", properties: [ { Size: { type: "long", value: 42 } } ] } ] }`. -/
theorem c1_end_to_end : readTpl 12 c1buf = some c1doc := rfl

/-- C2 (amended): when the placeholder scan finds a match, the recovered
name and tag partition the accumulated text (the prefix plus the decoded
bytes consumed), some placeholder literal is a suffix of that text, but the
split always takes the final 4 characters (the length of `placeholders[0]`)
as the tag — so the tag is the matched literal only when that literal has
length 4; dispatch then recurses with the recovered name and tag. -/
theorem c2_amended : ∀ fuel f off,
    (∀ pre name tag o2, extractUntilPlaceholder fuel f off pre = some (name, tag, o2) →
      off < o2 ∧
      name ++ tag = pre ++ asciiDecode (subarray f off o2) ∧
      name = (name ++ tag).take ((name ++ tag).length - 4) ∧
      tag = (name ++ tag).drop ((name ++ tag).length - 4) ∧
      (placeholders.any fun p => p.isSuffixOf (name ++ tag)) = true) ∧
    (∀ name ptype, isHandledTag ptype = false → unsupportedTags.contains ptype = false →
      extractOsTypeValue (fuel + 1) f off name ptype =
        match extractUntilPlaceholder fuel f off (name ++ ptype) with
        | none => none
        | some (nameFound, newPropertyType, o2) =>
          extractOsTypeValue fuel f o2 nameFound newPropertyType) := by
  intro fuel f off
  constructor
  · exact fun pre name tag o2 h => eup_spec fuel f off pre name tag o2 h
  · intro name ptype hh hu
    simp only [isHandledTag, Bool.or_eq_false_iff, beq_eq_false_iff_ne, ne_eq] at hh
    obtain ⟨⟨⟨⟨⟨⟨⟨⟨hb1, hb2⟩, hb3⟩, hb4⟩, hb5⟩, hb6⟩, hb7⟩, hb8⟩, hb9⟩ := hh
    rw [extractOsTypeValue, if_neg hb1, if_neg hb2, if_neg hb3, if_neg hb4, if_neg hb5,
      if_neg hb6, if_neg hb7, if_neg hb8, if_neg hb9, if_neg (by simpa using hu)]

/-- C2 counterexample: scanning the buffer `"adou"` matches via the 3-byte
literal `dou`, but the recovered tag is the 4-character `"adou"`, which is
not the matched literal (indeed not any placeholder literal). -/
theorem c2_counterexample :
    extractUntilPlaceholder 5 [97, 100, 111, 117] 0 [] = some ([], jstr "adou", 4) ∧
    (jstr "dou").isSuffixOf (jstr "adou") = true ∧
    jstr "adou" ∉ placeholders := by
  refine ⟨rfl, rfl, by decide⟩

/-- C2 witness: the amended theorem applied to the `"adou"` scan. -/
theorem c2_witness :
    (placeholders.any fun p => p.isSuffixOf (([] : JStr) ++ jstr "adou")) = true :=
  ((c2_amended 5 [97, 100, 111, 117] 0).1 [] [] (jstr "adou") 4 (by rfl)).2.2.2.2

/-- C3: contrary to the claim, the placeholder scan is not bounded by the
buffer length and never raises an error: past the end of the buffer each
iteration appends an empty slice, the accumulated text stops changing, and
the loop never exits — for every fuel bound the fuelled scan is still
running (`none`), i.e. the source `while (true)` loop runs forever. -/
theorem c3_scan_never_terminates : ∀ fuel off,
    extractUntilPlaceholder fuel [] off [] = none := by
  intro fuel
  induction fuel with
  | zero => intro off; rfl
  | succ n ih =>
    intro off
    have h1 : subarray [] off (off + 1) = ([] : List Nat) := by simp [subarray]
    simp only [extractUntilPlaceholder, h1, asciiDecode, List.map_nil, List.append_nil]
    rw [if_neg (by decide)]
    exact ih (off + 1)

/-- C4 (amended): when the 4-byte length reads as 0, `extractLabel` returns
the input offset advanced by 8 and the slice of the next 4 byte positions —
which has length exactly 4 whenever at least 8 bytes remain from the input
offset, and is truncated (possibly empty) otherwise. -/
theorem c4_amended : ∀ f off, readBE f off 4 = some 0 →
    extractLabel f off = some (subarray f (off + 4) (off + 8), off + 8) ∧
    (off + 8 ≤ f.length → (subarray f (off + 4) (off + 8)).length = 4) := by
  intro f off h
  constructor
  · simp [extractLabel, h]
  · intro hlen
    have := length_subarray f (off + 4) (off + 8)
    omega

/-- C4 counterexample: on the 4-byte all-zero buffer the length reads as 0,
but the returned label is the empty span, not a span of length exactly 4. -/
theorem c4_counterexample :
    readBE [0, 0, 0, 0] 0 4 = some 0 ∧
    extractLabel [0, 0, 0, 0] 0 = some ([], 8) ∧
    ([] : List Nat).length ≠ 4 := by
  refine ⟨rfl, rfl, by decide⟩

/-- C4 witness: with 8 bytes available the label really is 4 bytes long. -/
theorem c4_witness :
    extractLabel [0, 0, 0, 0, 9, 9, 9, 9] 0 = some (subarray [0, 0, 0, 0, 9, 9, 9, 9] 4 8, 8) ∧
    (subarray [0, 0, 0, 0, 9, 9, 9, 9] 4 8).length = 4 := by
  have h := c4_amended [0, 0, 0, 0, 9, 9, 9, 9] 0 (by rfl)
  exact ⟨h.1, h.2 (by decide)⟩

/-- C5: whenever the `8BIMtptp` marker occurs in the buffer,
`moveToToolDataSection` returns `true` together with the start of the LAST
occurrence plus 16; with no occurrence it returns `(false, 0)`. -/
theorem c5_last_marker : ∀ f,
    ((∃ p, matchesAt f marker p = true) →
      ∃ p, moveToToolDataSection f = (true, p + 16) ∧ matchesAt f marker p = true ∧
        ∀ q, matchesAt f marker q = true → q ≤ p) ∧
    ((∀ q, matchesAt f marker q = false) → moveToToolDataSection f = (false, 0)) := by
  intro f
  constructor
  · rintro ⟨p0, hp0⟩
    cases h : lastIndexOfFrom f marker f.length with
    | none =>
      exfalso
      have hle : p0 ≤ f.length := by
        by_contra hgt
        rw [matchesAt_false_of_gt f p0 (by omega)] at hp0
        exact Bool.noConfusion hp0
      rw [lastIndexOfFrom_none f marker f.length h p0 hle] at hp0
      exact Bool.noConfusion hp0
    | some p =>
      obtain ⟨hm, hple, hmax⟩ := lastIndexOfFrom_some f marker f.length p h
      refine ⟨p, ?_, hm, ?_⟩
      · simp [moveToToolDataSection, h]
      · intro q hq
        rcases le_or_lt q f.length with hql | hql
        · exact hmax q hql hq
        · exfalso
          rw [matchesAt_false_of_gt f q (by omega)] at hq
          exact Bool.noConfusion hq
  · intro hall
    cases h : lastIndexOfFrom f marker f.length with
    | none => simp [moveToToolDataSection, h]
    | some p =>
      obtain ⟨hm, _, _⟩ := lastIndexOfFrom_some f marker f.length p h
      rw [hall p] at hm
      exact Bool.noConfusion hm

/-- C5 witness: on a buffer with the marker at offsets 10 and 200 the locator
selects the last occurrence. -/
theorem c5_witness :
    ∃ p, moveToToolDataSection c5buf = (true, p + 16) ∧ matchesAt c5buf marker p = true ∧
      ∀ q, matchesAt c5buf marker q = true → q ≤ p :=
  (c5_last_marker c5buf).1 ⟨200, by decide⟩

end TPLParser

namespace TPLParser

theorem lowerJ_ascii (l : List Nat) : lowerJ (asciiDecode l) = l.map foldB := by
  simp only [lowerJ, asciiDecode, List.map_map]
  rfl

/-- C6 (amended): header validation accepts exactly the buffers (necessarily
of length at least 16) whose first 4 bytes, after clearing the high bit (the
`"ascii"` decoding) and folding letter case, spell `8btp`, and whose bytes
12..15, after the same transformation, spell `8bim`; acceptance returns
offset 16, and on any rejected buffer the decode entry point returns the
empty document. -/
theorem c6_amended : ∀ f,
    ((validateTplHeader f 0).1 = true ↔
      (subarray f 0 4).map foldB = jstr "8btp" ∧ (subarray f 12 16).map foldB = jstr "8bim") ∧
    ((validateTplHeader f 0).1 = true → (validateTplHeader f 0).2 = 16 ∧ 16 ≤ f.length) ∧
    ((validateTplHeader f 0).1 = false → ∀ fuel, readTpl fuel f = some []) := by
  intro f
  have key : validateTplHeader f 0 =
      (if lowerJ (asciiDecode (subarray f 0 4)) ≠ jstr "8btp" then (false, 4)
       else if lowerJ (asciiDecode (subarray f 12 16)) ≠ jstr "8bim" then (false, 16)
       else (true, 16)) := rfl
  have e1 := lowerJ_ascii (subarray f 0 4)
  have e2 := lowerJ_ascii (subarray f 12 16)
  by_cases c1 : lowerJ (asciiDecode (subarray f 0 4)) = jstr "8btp"
  · by_cases c2 : lowerJ (asciiDecode (subarray f 12 16)) = jstr "8bim"
    · have hv : validateTplHeader f 0 = (true, 16) := by
        rw [key, if_neg (not_not_intro c1), if_neg (not_not_intro c2)]
      refine ⟨⟨fun _ => ⟨e1 ▸ c1, e2 ▸ c2⟩, fun _ => by rw [hv]⟩, ?_, ?_⟩
      · intro _
        refine ⟨by rw [hv], ?_⟩
        have hlen4 : (subarray f 12 16).length = 4 := by
          have hc := congrArg List.length c2
          simpa [lowerJ, asciiDecode, jstr] using hc
        have := length_subarray f 12 16
        omega
      · intro hfalse
        rw [hv] at hfalse
        exact Bool.noConfusion hfalse
    · have hv : validateTplHeader f 0 = (false, 16) := by
        rw [key, if_neg (not_not_intro c1), if_pos c2]
      refine ⟨⟨?_, ?_⟩, ?_, ?_⟩
      · intro htrue; rw [hv] at htrue; exact Bool.noConfusion htrue
      · rintro ⟨-, hB⟩; exact absurd (e2.trans hB) c2
      · intro htrue; rw [hv] at htrue; exact Bool.noConfusion htrue
      · intro _ fuel; simp [readTpl, hv]
  · have hv : validateTplHeader f 0 = (false, 4) := by rw [key, if_pos c1]
    refine ⟨⟨?_, ?_⟩, ?_, ?_⟩
    · intro htrue; rw [hv] at htrue; exact Bool.noConfusion htrue
    · rintro ⟨hA, -⟩; exact absurd (e1.trans hA) c1
    · intro htrue; rw [hv] at htrue; exact Bool.noConfusion htrue
    · intro _ fuel; simp [readTpl, hv]

/-- C6 counterexample: a buffer whose first byte is `0xB8` (not `8` in any
letter case) passes header validation, because the `"ascii"` decoding clears
the high bit before the case-insensitive compare — so validation does not
accept "exactly" the claim's set of buffers. -/
theorem c6_counterexample :
    (validateTplHeader [184, 98, 116, 112, 0, 0, 0, 0, 0, 0, 0, 0, 56, 98, 105, 109] 0).1 = true ∧
    ¬ caseInsEq (subarray [184, 98, 116, 112, 0, 0, 0, 0, 0, 0, 0, 0, 56, 98, 105, 109] 0 4)
        (jstr "8btp") := by
  refine ⟨rfl, by decide⟩

/-- C6 witness: the empty buffer is rejected and decodes to the empty
document; the C1 buffer is accepted with its bytes satisfying the folded
conditions. -/
theorem c6_witness :
    readTpl 1 [] = some [] ∧
    (subarray c1buf 0 4).map foldB = jstr "8btp" ∧
    (subarray c1buf 12 16).map foldB = jstr "8bim" :=
  ⟨(c6_amended []).2.2 (by rfl) 1, (c6_amended c1buf).1.mp (by rfl)⟩

/-- C7: a property whose decoded name is exactly `"null"` yields the empty
record, with the cursor left immediately after the name label. -/
theorem c7_null_property : ∀ fuel f off nameBytes o,
    extractLabel f off = some (nameBytes, o) →
    asciiDecode nameBytes = jstr "null" →
    extractProperty (fuel + 1) f off = some ([], o) := by
  intro fuel f off nb o h1 h2
  simp only [extractProperty]
  rw [h1]
  simp [h2]

/-- C7 witness: the length-4 label `null` produces the empty property at
offset 8. -/
theorem c7_witness : extractProperty 1 [0, 0, 0, 4, 110, 117, 108, 108] 0 = some ([], 8) :=
  c7_null_property 0 [0, 0, 0, 4, 110, 117, 108, 108] 0 [110, 117, 108, 108] 8 (by rfl) (by rfl)

/-- C8: for the recognized-but-unsupported tags (`type`, `GlbC`, `obj `,
`alis`, `tdta`) dispatch returns no value with the offset unchanged (no
error), and the enclosing property decode returns the empty property at the
input offset advanced by exactly the 4 tag bytes. -/
theorem c8_unsupported_tags : ∀ fuel f off name ptype,
    ptype ∈ unsupportedTags →
    extractOsTypeValue (fuel + 1) f off name ptype = some (none, off) ∧
    (asciiDecode (subarray f off (off + 4)) = ptype →
      ∀ nameBytes, extractPropertyValue (fuel + 1 + 1) f off nameBytes = some ([], off + 4)) := by
  intro fuel f off name ptype hmem
  simp only [unsupportedTags, List.mem_cons, List.not_mem_nil, or_false] at hmem
  have hos : ∀ g o nm, extractOsTypeValue (fuel + 1) g o nm ptype = some (none, o) := by
    intro g o nm
    rcases hmem with hm | hm | hm | hm | hm <;> rw [hm] <;> rfl
  refine ⟨hos f off name, ?_⟩
  intro htag nameBytes
  simp only [extractPropertyValue]
  rw [htag, hos f (off + 4) (trimJ (asciiDecode nameBytes))]

/-- C8 witness: on a buffer whose tag bytes spell `type`, dispatch keeps the
offset and the property decode yields the empty property at offset 4. -/
theorem c8_witness :
    extractOsTypeValue 1 [116, 121, 112, 101] 0 (jstr "x") (jstr "type") = some (none, 0) ∧
    extractPropertyValue 2 [116, 121, 112, 101] 0 (jstr "Size") = some ([], 4) := by
  have h := c8_unsupported_tags 0 [116, 121, 112, 101] 0 (jstr "x") (jstr "type") (by decide)
  exact ⟨h.1, h.2 (by rfl) (jstr "Size")⟩

end TPLParser

namespace TPLParser

/-- C9 (amended): every primitive, label and text decode step that completes
with a numeric result returns an offset strictly greater than the input
offset (text decoding net-advances despite its internal rewinds);
`extractInteger`, `extractLargeInteger` and `extractBoolean` always advance
by their fixed widths.  Steps whose length read runs past the end of the
buffer instead produce a NaN offset (modelled as `none`) — see the
counterexample — so strict advance holds exactly for the completed steps. -/
theorem c9_amended : ∀ f off,
    (∀ b o, extractLabel f off = some (b, o) → off < o) ∧
    (extractInteger f off).2 = off + 4 ∧
    (extractLargeInteger f off).2 = off + 8 ∧
    (∀ v o, extractDouble f off = some (v, o) → off < o) ∧
    (extractBoolean f off).2 = off + 1 ∧
    (∀ v o, extractEnum f off = some (v, o) → off < o) ∧
    (∀ fuel s o, extractText fuel f off = some (s, o) → off < o) := by
  intro f off
  refine ⟨?_, rfl, rfl, ?_, rfl, ?_, ?_⟩
  · exact fun b o h => extractLabel_advance f off b o h
  · intro v o h
    have := extractDouble_advance f off v o h
    omega
  · exact fun v o h => extractEnum_advance f off v o h
  · intro fuel s o h
    have := (decodeAdvance fuel).2.2.2.2.2.2.2.1 f off (s, o) h
    simpa using this

/-- C9 counterexample: `extractEnum` on the 4-byte all-zero buffer starts in
bounds, but its value-length read falls past the end and yields NaN, so the
returned offset is `12 + NaN = NaN` — not a number strictly greater than the
input offset 0 (the model renders the NaN cursor as `none`). -/
theorem c9_counterexample :
    extractEnum [0, 0, 0, 0] 0 = none ∧
    ∀ v o, ¬ (extractEnum [0, 0, 0, 0] 0 = some (v, o) ∧ 0 < o) := by
  refine ⟨rfl, ?_⟩
  intro v o hvo
  have h := hvo.1
  rw [show extractEnum [0, 0, 0, 0] 0 = none from rfl] at h
  exact Option.noConfusion h

/-- C9 witness: a completed text decode strictly advances. -/
theorem c9_witness :
    extractText 1 [0, 0, 0, 1, 0, 65] 0 = some (jstr "A", 6) ∧ (0 : Nat) < 6 := by
  refine ⟨rfl, ?_⟩
  exact (c9_amended [0, 0, 0, 1, 0, 65] 0).2.2.2.2.2.2 1 (jstr "A") 6 (by rfl)

/-- C10: a list element with a recognized-but-unsupported tag still
contributes an entry — the lookup of the synthetic index name in the empty
property, i.e. the absent value — with the cursor advanced by the 4 tag
bytes, and the completed list always has length equal to the decoded 4-byte
count (no shortening, no error). -/
theorem c10_list_holes : ∀ fuel f off i k,
    (∀ vs o2, extractListLoop fuel f off i k = some (vs, o2) → vs.length = k) ∧
    (asciiDecode (subarray f off (off + 4)) ∈ unsupportedTags →
      ∀ rec o, extractPropertyValue fuel f off (numName i) = some (rec, o) →
        rec = [] ∧ o = off + 4 ∧
        extractListLoop (fuel + 1) f off i (k + 1) =
          (extractListLoop fuel f (off + 4) (i + 1) k).map (fun s => (none :: s.1, s.2))) ∧
    (∀ N vs o2, readBE f off 4 = some N → extractList (fuel + 1) f off = some (vs, o2) →
      vs.length = N) := by
  have hlen : ∀ fuel f off i k vs o2,
      extractListLoop fuel f off i k = some (vs, o2) → vs.length = k := by
    intro fuel
    induction fuel with
    | zero => intro f off i k vs o2 h; exact Option.noConfusion h
    | succ n ih =>
      intro f off i k vs o2 h
      cases k with
      | zero =>
        simp only [extractListLoop] at h
        cases h
        rfl
      | succ k =>
        simp only [extractListLoop] at h
        split at h
        · exact Option.noConfusion h
        · rename_i prop o heq
          split at h
          · exact Option.noConfusion h
          · rename_i ps o3 heq2
            cases h
            simp only [List.length_cons]
            rw [ih f o (i + 1) k ps _ heq2]
  intro fuel f off i k
  refine ⟨fun vs o2 h => hlen fuel f off i k vs o2 h, ?_, ?_⟩
  · intro hmem rec o hpv
    cases fuel with
    | zero => exact Option.noConfusion hpv
    | succ m =>
      cases m with
      | zero => simp [extractPropertyValue, extractOsTypeValue] at hpv
      | succ j =>
        have hos : extractOsTypeValue (j + 1) f (off + 4) (trimJ (asciiDecode (numName i)))
            (asciiDecode (subarray f off (off + 4))) = some (none, off + 4) := by
          simp only [unsupportedTags, List.mem_cons, List.not_mem_nil, or_false] at hmem
          rcases hmem with hm | hm | hm | hm | hm <;> rw [hm] <;> rfl
        have heqPV : extractPropertyValue (j + 1 + 1) f off (numName i) = some ([], off + 4) := by
          simp only [extractPropertyValue]
          rw [hos]
        rw [heqPV] at hpv
        simp only [Option.some.injEq, Prod.mk.injEq] at hpv
        obtain ⟨h1, h2⟩ := hpv
        refine ⟨h1.symm, h2.symm, ?_⟩
        simp only [extractListLoop]
        rw [heqPV]
        cases hll : extractListLoop (j + 1 + 1) f (off + 4) (i + 1) k with
        | none => simp [hll]
        | some s => simp [hll, lookupRec]
  · intro N vs o2 hN h
    simp only [extractList] at h
    rw [hN] at h
    simp only [Option.getD_some] at h
    exact hlen fuel f (off + 4) 0 N vs o2 h

/-- C10 witness: an unsupported-tag element yields the undefined hole and the
loop continues. -/
theorem c10_witness :
    extractListLoop 3 [116, 121, 112, 101] 0 0 1 =
      (extractListLoop 2 [116, 121, 112, 101] 4 1 0).map (fun s => (none :: s.1, s.2)) :=
  (((c10_list_holes 2 [116, 121, 112, 101] 0 0 0).2.1 (by decide) [] 4 (by rfl)).2.2)

end TPLParser
